import Mathlib

/-!
Shallow embedding of `main.py` of the harview repository: a HAR-capture
performance analyzer.  Times are modelled as rationals, Python dicts as
association lists with distinct keys, and Python `round(x, d)` as
round-half-to-even on rationals scaled by `10^d`.
-/

namespace Harview

/-- Python `s.startswith(p)`. -/
def strStartsWith (s p : String) : Bool :=
  p.toList.isPrefixOf s.toList

/-- Python `s.endswith(p)`. -/
def strEndsWith (s p : String) : Bool :=
  p.toList.isSuffixOf s.toList

/-- Whether `p` occurs as a contiguous sublist of `s`. -/
def charsContain (p : List Char) : List Char → Bool
  | [] => p.isEmpty
  | c :: t => p.isPrefixOf (c :: t) || charsContain p t

/-- Python `p in s` (substring containment). -/
def strContains (s p : String) : Bool :=
  charsContain p.toList s.toList

/-- The `static_extensions` list of `analyze_har` (main.py lines 71-76). -/
def static_extensions : List String :=
  [".css", ".js", ".svg", ".png", ".jpg", ".jpeg", ".gif", ".webp", ".ico",
   ".woff", ".woff2", ".ttf", ".eot", ".otf",
   ".mp3", ".mp4", ".avi", ".mov", ".wmv", ".flv",
   ".pdf", ".zip", ".rar", ".tar", ".gz"]

/-- The `static_paths` list of `analyze_har` (main.py lines 86-87). -/
def static_paths : List String :=
  ["/css/", "/js/", "/svg/", "/images/", "/img/", "/assets/",
   "/static/", "/fonts/", "/media/", "_next/static"]

/-- The `is_static` flag computed by `analyze_har` (main.py lines 79-91):
true when the URL ends with a static extension, contains an extension
followed directly by a question mark anywhere, or contains a static
path marker anywhere. -/
def is_static (url : String) : Bool :=
  (static_extensions.any fun ext =>
     strEndsWith url ext || strContains url (ext ++ "?")) ||
  (static_paths.any fun p => strContains url p)

/-- One entry of a HAR file as the loop at main.py lines 62-97 reads it:
`url` is `e["request"]["url"]` (`none` when missing, which raises
`KeyError`), `time` is `e["time"]` (`none` when missing). -/
structure RawEntry where
  url : Option String
  time : Option Rat
  deriving DecidableEq

/-- What the loop body does with one entry. -/
inductive EntryStep where
  | raise
  | skip
  | keep (p : String × Rat)
  deriving DecidableEq

/-- The loop body of `analyze_har` (main.py lines 62-97): read the URL
(raising when absent), drop WebSocket URLs, drop static assets when
`filter_assets` is set, then read the time (raising when absent) and
record the pair. -/
def stepEntry (filter_assets : Bool) (e : RawEntry) : EntryStep :=
  match e.url with
  | none => .raise
  | some url =>
    if strStartsWith url "wss://" || strStartsWith url "ws://" then .skip
    else if filter_assets && is_static url then .skip
    else
      match e.time with
      | none => .raise
      | some t => .keep (url, t)

/-- Folding the loop over a file's entries.  A raising entry aborts the
rest of the file (the `except` at main.py line 99 catches at file
granularity), keeping the pairs already recorded. -/
def processEntries (filter_assets : Bool) : List RawEntry → List (String × Rat)
  | [] => []
  | e :: es =>
    match stepEntry filter_assets e with
    | .raise => []
    | .skip => processEntries filter_assets es
    | .keep p => p :: processEntries filter_assets es

/-- A HAR file as `analyze_har` sees it: either it fails to parse
(`json.load` or the `["log"]["entries"]` access raises, main.py
lines 58-60) or it yields a list of entries. -/
inductive HarFile where
  | parseError
  | entries (es : List RawEntry)

/-- The pairs one file contributes to `all_results`. -/
def filePairs (filter_assets : Bool) : HarFile → List (String × Rat)
  | .parseError => []
  | .entries es => processEntries filter_assets es

/-- The pairs appended to the shared `all_results` accumulator across
all files, in processing order (main.py lines 56-101). -/
def allPairs (filter_assets : Bool) : List HarFile → List (String × Rat)
  | [] => []
  | f :: fs => filePairs filter_assets f ++ allPairs filter_assets fs

/-- The times `all_results[url]` recorded for one URL, in arrival
order (main.py line 97, `defaultdict(list)` keyed by URL). -/
def timesAt (ps : List (String × Rat)) (u : String) : List Rat :=
  (ps.filter fun p => p.1 == u).map Prod.snd

/-- Python `max` over a non-empty list (left fold); `0` on the empty
list, which Python would reject — callers only reach it on non-empty
lists. -/
def pyMax : List Rat → Rat
  | [] => 0
  | a :: l => l.foldl max a

/-- Round-half-to-even to the nearest integer, as Python `round` does. -/
def roundHalfEven (q : Rat) : Int :=
  if Int.fract q < 1 / 2 then ⌊q⌋
  else if 1 / 2 < Int.fract q then ⌊q⌋ + 1
  else if 2 ∣ ⌊q⌋ then ⌊q⌋ else ⌊q⌋ + 1

/-- Python `round(q, d)` on the rational model. -/
def pyRound (d : Nat) (q : Rat) : Rat :=
  (roundHalfEven (q * 10 ^ d) : Rat) / 10 ^ d

/-- The summary built at main.py lines 104-106 as a map: a URL with no
recorded times is absent (`none`); otherwise the value is
`round(max(times), 2)`. -/
def summaryAt (ps : List (String × Rat)) (u : String) : Option Rat :=
  if timesAt ps u = [] then none
  else some (pyRound 2 (pyMax (timesAt ps u)))

/-- The function `analyze_har` (main.py lines 32-108) restricted to its data path:
folder scanning is elided, the files found stand in for the folder.
The result maps each URL to `round(max(times), 2)`. -/
def analyze_har (files : List HarFile) (filter_assets : Bool) (u : String) : Option Rat :=
  summaryAt (allPairs filter_assets files) u

/-- One dict appended to `comparison_results` (main.py lines 130-138). -/
structure ComparisonRow where
  url : String
  first_avg : Rat
  second_avg : Rat
  time_diff : Rat
  percentage_diff : Rat
  first_name : String
  second_name : String
  deriving DecidableEq

/-- The body of the `for url in common_urls` loop (main.py lines 119-138):
`time_diff = second_max - first_max`, rounded to 2 places when stored;
the percentage uses the unrounded difference over `first_max` and is `0`
unless `first_max > 0`. -/
def mkRow (first_name second_name : String) (u : String)
    (first_max second_max : Rat) : ComparisonRow :=
  { url := u
    first_avg := first_max
    second_avg := second_max
    time_diff := pyRound 2 (second_max - first_max)
    percentage_diff :=
      if 0 < first_max then pyRound 1 ((second_max - first_max) / first_max * 100)
      else 0
    first_name := first_name
    second_name := second_name }

/-- Stable insertion into a list sorted descending by `key`: the new
element goes before the first element whose key is not larger. -/
def insertDesc {α : Type} (key : α → Rat) (a : α) : List α → List α
  | [] => [a]
  | b :: l => if key a < key b then b :: insertDesc key a l else a :: b :: l

/-- A stable descending sort by `key`, modelling Python
`list.sort(key=..., reverse=True)` (stable sorts with one comparator
agree as functions, so insertion sort is a faithful model). -/
def sortDesc {α : Type} (key : α → Rat) : List α → List α
  | [] => []
  | a :: l => insertDesc key a (sortDesc key l)

/-- The function `compare_performance` (main.py lines 110-143): one row per URL in
both dicts, sorted descending by `time_diff`.  The iteration order of
the Python set `common_urls` is unspecified; it is modelled here as the
first dict's key order (the sort makes the choice observable only
between tied rows, where the code fixes no order either). -/
def compare_performance (first_data second_data : List (String × Rat))
    (first_name second_name : String) : List ComparisonRow :=
  sortDesc (fun r => r.time_diff)
    ((first_data.filter fun p => (second_data.lookup p.1).isSome).map
      fun p => mkRow first_name second_name p.1 p.2 ((second_data.lookup p.1).getD 0))

/-- The comparison-mode call site (main.py line 352): the aggregates of
the two command-line folders are passed to `compare_performance` with
the SECOND folder's data and name in the first (baseline) position. -/
def runComparison (first_data second_data : List (String × Rat))
    (first_name second_name : String) : List ComparisonRow :=
  compare_performance second_data first_data second_name first_name

/-- One dict appended to `url_performance` (main.py lines 156-159). -/
structure SlowRow where
  url : String
  max_time : Rat
  deriving DecidableEq

/-- The function `analyze_slowest_urls` (main.py lines 145-164): empty data gives an
empty list; otherwise the per-URL rows are sorted descending by
`max_time` (Python sort, stable) and the first `top_n` are kept. -/
def analyze_slowest_urls (folder_data : List (String × Rat)) (top_n : Nat) : List SlowRow :=
  if folder_data.isEmpty then []
  else (sortDesc (fun r => r.max_time) (folder_data.map fun p => ⟨p.1, p.2⟩)).take top_n

/-- The ranker at its default `top_n=100` (main.py line 145). -/
def analyze_slowest_urls_default (folder_data : List (String × Rat)) : List SlowRow :=
  analyze_slowest_urls folder_data 100

/-- Python `url.split('?')[0]`: the URL with any trailing query
string removed. -/
def stripQuery (url : String) : String :=
  String.mk (url.toList.takeWhile fun c => c ≠ '?')

/-- The asset-filter predicate as the specification words it: the URL,
ignoring any trailing query string, ends with a static extension, or
the URL contains a static path marker anywhere.  Stated for comparison
with `is_static`, the predicate the code actually computes. -/
def specStatic (url : String) : Bool :=
  (static_extensions.any fun ext => strEndsWith (stripQuery url) ext) ||
  (static_paths.any fun p => strContains url p)

/-! ### Helper lemmas -/

theorem stepEntry_keep_url {fa : Bool} {e : RawEntry} {p : String × Rat}
    (h : stepEntry fa e = .keep p) :
    (strStartsWith p.1 "wss://" || strStartsWith p.1 "ws://") = false := by
  unfold stepEntry at h
  cases e with
  | mk url time =>
    cases url with
    | none => simp at h
    | some u =>
      simp only at h
      split at h
      · simp at h
      · split at h
        · simp at h
        · cases time with
          | none => simp at h
          | some t =>
            simp only [EntryStep.keep.injEq] at h
            subst h
            rename_i hws _
            simpa using hws

theorem mem_processEntries {fa : Bool} {es : List RawEntry} {p : String × Rat}
    (h : p ∈ processEntries fa es) :
    ∃ e ∈ es, stepEntry fa e = .keep p := by
  induction es with
  | nil => simp [processEntries] at h
  | cons e es ih =>
    rw [processEntries] at h
    rcases hs : stepEntry fa e with _ | _ | q <;> rw [hs] at h
    · simp at h
    · rcases ih h with ⟨e', he', hstep⟩
      exact ⟨e', List.mem_cons_of_mem _ he', hstep⟩
    · rcases List.mem_cons.mp h with h | h
      · exact ⟨e, List.mem_cons_self _ _, by rw [hs, h]⟩
      · rcases ih h with ⟨e', he', hstep⟩
        exact ⟨e', List.mem_cons_of_mem _ he', hstep⟩

theorem processEntries_append_no_raise {fa : Bool} {es₁ : List RawEntry}
    (es₂ : List RawEntry) (h : ∀ e ∈ es₁, stepEntry fa e ≠ .raise) :
    processEntries fa (es₁ ++ es₂) = processEntries fa es₁ ++ processEntries fa es₂ := by
  induction es₁ with
  | nil => simp [processEntries]
  | cons e es ih =>
    have he : stepEntry fa e ≠ .raise := h e (List.mem_cons_self _ _)
    have hrest : ∀ e' ∈ es, stepEntry fa e' ≠ .raise :=
      fun e' he' => h e' (List.mem_cons_of_mem _ he')
    rw [List.cons_append, processEntries, processEntries]
    rcases hs : stepEntry fa e with _ | _ | q
    · exact absurd hs he
    · exact ih hrest
    · rw [ih hrest, List.cons_append]

theorem processEntries_raise_stop {fa : Bool} {es₁ : List RawEntry} {bad : RawEntry}
    (es₂ : List RawEntry) (h₁ : ∀ e ∈ es₁, stepEntry fa e ≠ .raise)
    (h₂ : stepEntry fa bad = .raise) :
    processEntries fa (es₁ ++ bad :: es₂) = processEntries fa es₁ := by
  rw [processEntries_append_no_raise (bad :: es₂) h₁]
  rw [processEntries, h₂, List.append_nil]

theorem allPairs_append (fa : Bool) (fs gs : List HarFile) :
    allPairs fa (fs ++ gs) = allPairs fa fs ++ allPairs fa gs := by
  induction fs with
  | nil => simp [allPairs]
  | cons f fs ih => rw [List.cons_append, allPairs, allPairs, ih, List.append_assoc]

theorem mem_allPairs {fa : Bool} {fs : List HarFile} {p : String × Rat}
    (h : p ∈ allPairs fa fs) : ∃ f ∈ fs, p ∈ filePairs fa f := by
  induction fs with
  | nil => simp [allPairs] at h
  | cons f fs ih =>
    rw [allPairs] at h
    rcases List.mem_append.mp h with h | h
    · exact ⟨f, List.mem_cons_self _ _, h⟩
    · rcases ih h with ⟨f', hf', hp⟩
      exact ⟨f', List.mem_cons_of_mem _ hf', hp⟩

theorem foldl_max_mem : ∀ (l : List Rat) (a : Rat), l.foldl max a ∈ a :: l
  | [], a => by simp
  | b :: l, a => by
    rw [List.foldl_cons]
    rcases List.mem_cons.mp (foldl_max_mem l (max a b)) with h | h
    · rcases max_choice a b with hm | hm <;> rw [h, hm] <;> simp
    · simp [h]

theorem le_foldl_max : ∀ (l : List Rat) (a x : Rat), x ∈ a :: l → x ≤ l.foldl max a
  | [], a, x, h => by simp at h; simp [h]
  | b :: l, a, x, h => by
    rw [List.foldl_cons]
    rcases List.mem_cons.mp h with h | h
    · calc x = a := h
        _ ≤ max a b := le_max_left _ _
        _ ≤ (b :: l).foldl max a := le_foldl_max l (max a b) _ (List.mem_cons_self _ _)
    · rcases List.mem_cons.mp h with h | h
      · calc x = b := h
          _ ≤ max a b := le_max_right _ _
          _ ≤ (b :: l).foldl max a := le_foldl_max l (max a b) _ (List.mem_cons_self _ _)
      · exact le_foldl_max l (max a b) x (List.mem_cons_of_mem _ h)

theorem pyMax_mem {l : List Rat} (h : l ≠ []) : pyMax l ∈ l := by
  cases l with
  | nil => exact absurd rfl h
  | cons a l => exact foldl_max_mem l a

theorem le_pyMax {l : List Rat} {x : Rat} (h : x ∈ l) : x ≤ pyMax l := by
  cases l with
  | nil => simp at h
  | cons a l => exact le_foldl_max l a x h

theorem pyMax_perm {l l' : List Rat} (h : l.Perm l') (hne : l ≠ []) :
    pyMax l = pyMax l' := by
  have hne' : l' ≠ [] := fun hl => hne (by rw [hl] at h; exact h.eq_nil)
  exact le_antisymm
    (le_pyMax (h.mem_iff.mp (pyMax_mem hne)))
    (le_pyMax (h.mem_iff.mpr (pyMax_mem hne')))

theorem timesAt_perm {ps ps' : List (String × Rat)} (h : ps.Perm ps') (u : String) :
    (timesAt ps u).Perm (timesAt ps' u) :=
  (h.filter _).map _

theorem summaryAt_perm {ps ps' : List (String × Rat)} (h : ps.Perm ps') (u : String) :
    summaryAt ps u = summaryAt ps' u := by
  have ht := timesAt_perm h u
  unfold summaryAt
  by_cases hn : timesAt ps u = []
  · have hn2 : timesAt ps' u = [] := by rw [hn] at ht; exact ht.symm.eq_nil
    rw [if_pos hn, if_pos hn2]
  · have hn' : timesAt ps' u ≠ [] := fun hh => hn (by rw [hh] at ht; exact ht.eq_nil)
    rw [if_neg hn, if_neg hn', pyMax_perm ht hn]

theorem floor_neg_of_fract_ne_zero {q : Rat} (h : Int.fract q ≠ 0) :
    ⌊-q⌋ = -⌊q⌋ - 1 := by
  have h1 : ((⌊-q⌋ : Int) : Rat) = -q - Int.fract (-q) := by
    rw [← Int.self_sub_fract (-q)]
  rw [Int.fract_neg h] at h1
  have h2 : ((⌊q⌋ : Int) : Rat) = q - Int.fract q := by
    rw [← Int.self_sub_fract q]
  have : ((⌊-q⌋ : Int) : Rat) = ((-⌊q⌋ - 1 : Int) : Rat) := by
    push_cast
    rw [h1]
    have := h2
    nlinarith [h2]
  exact_mod_cast this

theorem roundHalfEven_neg (q : Rat) : roundHalfEven (-q) = -roundHalfEven q := by
  unfold roundHalfEven
  by_cases h0 : Int.fract q = 0
  · have hq : q = (⌊q⌋ : Rat) := by
      have h := Int.self_sub_fract q
      rw [h0, sub_zero] at h
      exact h
    have hccz : Int.fract (-q) = 0 := Int.fract_neg_eq_zero.mpr h0
    have hfl : ⌊-q⌋ = -⌊q⌋ := by
      conv_lhs => rw [hq]
      rw [← Int.cast_neg, Int.floor_intCast]
    rw [h0, hccz, hfl]
    norm_num
  · have hfl : ⌊-q⌋ = -⌊q⌋ - 1 := floor_neg_of_fract_ne_zero h0
    have hfr : Int.fract (-q) = 1 - Int.fract q := Int.fract_neg h0
    have hpos : 0 < Int.fract q := lt_of_le_of_ne (Int.fract_nonneg q) (Ne.symm h0)
    have hlt : Int.fract q < 1 := Int.fract_lt_one q
    rw [hfr, hfl]
    rcases lt_trichotomy (Int.fract q) (1 / 2) with hc | hc | hc
    · rw [if_neg (by linarith : ¬(1 - Int.fract q < 1 / 2)),
        if_pos (by linarith : (1 : Rat) / 2 < 1 - Int.fract q), if_pos hc]
      omega
    · rw [hc]
      norm_num
      split <;> split <;> omega
    · rw [if_pos (by linarith : 1 - Int.fract q < 1 / 2),
        if_neg (by linarith : ¬(Int.fract q < 1 / 2)), if_pos hc]
      omega

theorem pyRound_neg (d : Nat) (q : Rat) : pyRound d (-q) = -pyRound d q := by
  unfold pyRound
  rw [neg_mul, roundHalfEven_neg]
  push_cast
  ring

/-! ### Sorting lemmas -/

theorem insertDesc_perm {α : Type} (key : α → Rat) (a : α) (l : List α) :
    (insertDesc key a l).Perm (a :: l) := by
  induction l with
  | nil => exact List.Perm.refl _
  | cons b l ih =>
    rw [insertDesc]
    split
    · exact (ih.cons b).trans (List.Perm.swap a b l)
    · exact List.Perm.refl _

theorem sortDesc_perm {α : Type} (key : α → Rat) (l : List α) :
    (sortDesc key l).Perm l := by
  induction l with
  | nil => exact List.Perm.refl _
  | cons a l ih => exact (insertDesc_perm key a (sortDesc key l)).trans (ih.cons a)

theorem insertDesc_sorted {α : Type} (key : α → Rat) (a : α) {l : List α}
    (hl : l.Pairwise fun x y => key y ≤ key x) :
    (insertDesc key a l).Pairwise fun x y => key y ≤ key x := by
  induction l with
  | nil => simp [insertDesc]
  | cons b l ih =>
    rw [insertDesc]
    rcases List.pairwise_cons.mp hl with ⟨hb, hl'⟩
    split
    · rename_i hab
      refine List.pairwise_cons.mpr ⟨?_, ih hl'⟩
      intro x hx
      rcases List.mem_cons.mp ((insertDesc_perm key a l).mem_iff.mp hx) with hx | hx
      · rw [hx]; exact le_of_lt hab
      · exact hb x hx
    · rename_i hab
      push_neg at hab
      refine List.pairwise_cons.mpr ⟨?_, hl⟩
      intro x hx
      rcases List.mem_cons.mp hx with hx | hx
      · rw [hx]; exact hab
      · exact le_trans (hb x hx) hab

theorem sortDesc_sorted {α : Type} (key : α → Rat) (l : List α) :
    (sortDesc key l).Pairwise fun x y => key y ≤ key x := by
  induction l with
  | nil => simp [sortDesc]
  | cons a l ih => exact insertDesc_sorted key a ih

theorem insertDesc_filter_key {α : Type} (key : α → Rat) (c : Rat) (a : α) (l : List α) :
    ((insertDesc key a l).filter fun x => key x == c) =
      ((a :: l).filter fun x => key x == c) := by
  induction l with
  | nil => rfl
  | cons b l ih =>
    rw [insertDesc]
    split
    · rename_i hab
      by_cases hb : (key b == c) = true
      · have ha : (key a == c) = false := by
          rw [beq_eq_false_iff_ne]
          intro hac
          rw [hac, beq_iff_eq.mp hb] at hab
          exact lt_irrefl _ hab
        simp [List.filter_cons, hb, ha, ih]
      · simp [List.filter_cons, hb, ih]
    · rfl

theorem sortDesc_filter_key {α : Type} (key : α → Rat) (c : Rat) (l : List α) :
    ((sortDesc key l).filter fun x => key x == c) = (l.filter fun x => key x == c) := by
  induction l with
  | nil => rfl
  | cons a l ih =>
    rw [sortDesc, insertDesc_filter_key]
    simp only [List.filter_cons, ih]

theorem pairwise_head_getLast {α : Type} {R : α → α → Prop} {l : List α}
    (hl : l.Pairwise R) (hrefl : ∀ a, R a a) :
    ∀ x ∈ l.head?, ∀ y ∈ l.getLast?, R x y := by
  cases l with
  | nil => intro x hx; simp at hx
  | cons a t =>
    intro x hx y hy
    rw [List.head?_cons, Option.mem_some_iff] at hx
    subst hx
    have hy' : y ∈ a :: t := by
      have := List.getLast?_eq_getLast (a :: t) (by simp)
      rw [this, Option.mem_some_iff] at hy
      rw [← hy]
      exact List.getLast_mem _
    rcases List.mem_cons.mp hy' with h | h
    · rw [h] at hy ⊢; exact hrefl _
    · exact (List.pairwise_cons.mp hl).1 y h

/-! ### Lookup lemmas -/

theorem lookup_isSome_iff {β : Type} (l : List (String × β)) (u : String) :
    (l.lookup u).isSome = true ↔ ∃ v, (u, v) ∈ l := by
  induction l with
  | nil => simp [List.lookup]
  | cons p t ih =>
    cases p with
    | mk a v =>
      by_cases hu : u = a
      · subst hu
        simp [List.lookup]
      · have hne : (u == a) = false := by simp [hu]
        rw [List.lookup]
        simp only [hne]
        rw [ih]
        constructor
        · rintro ⟨w, hw⟩
          exact ⟨w, List.mem_cons_of_mem _ hw⟩
        · rintro ⟨w, hw⟩
          rcases List.mem_cons.mp hw with hw | hw
          · exact absurd (congrArg Prod.fst hw) hu
          · exact ⟨w, hw⟩

theorem lookup_mem {β : Type} {l : List (String × β)} {u : String} {v : β}
    (h : l.lookup u = some v) : (u, v) ∈ l := by
  induction l with
  | nil => simp [List.lookup] at h
  | cons p t ih =>
    cases p with
    | mk a w =>
      by_cases hu : u = a
      · subst hu
        rw [List.lookup] at h
        simp at h
        rw [h]
        exact List.mem_cons_self _ _
      · have hne : (u == a) = false := by simp [hu]
        rw [List.lookup] at h
        simp only [hne] at h
        exact List.mem_cons_of_mem _ (ih h)

theorem mem_lookup_of_nodup {β : Type} {l : List (String × β)} {u : String} {v : β}
    (hn : (l.map Prod.fst).Nodup) (h : (u, v) ∈ l) : l.lookup u = some v := by
  induction l with
  | nil => simp at h
  | cons p t ih =>
    cases p with
    | mk a w =>
      rcases List.mem_cons.mp h with h | h
      · have hu : u = a := congrArg Prod.fst h
        have hv : v = w := congrArg Prod.snd h
        rw [List.lookup]
        simp [hu, hv]
      · have hna : a ∉ t.map Prod.fst := (List.nodup_cons.mp (by simpa using hn)).1
        have hu : u ≠ a := by
          intro hua
          exact hna (hua ▸ List.mem_map.mpr ⟨(u, v), h, rfl⟩)
        have hne : (u == a) = false := by simp [hu]
        rw [List.lookup]
        simp only [hne]
        exact ih (List.nodup_cons.mp (by simpa using hn)).2 h

/-! ### Claim theorems -/

/-- C9: every entry whose URL begins with `ws://` or `wss://`
(case-sensitive prefix match) is unconditionally dropped before any
other processing, so such a URL never appears as a key of any aggregate
produced by `analyze_har`, regardless of the `filter_assets` flag. -/
theorem websocket_urls_never_aggregated (files : List HarFile) (fa : Bool) (u : String)
    (h : (strStartsWith u "ws://" || strStartsWith u "wss://") = true) :
    analyze_har files fa u = none := by
  have hempty : timesAt (allPairs fa files) u = [] := by
    unfold timesAt
    rw [List.filter_eq_nil_iff.mpr, List.map_nil]
    intro p hp hq
    have hu : p.1 = u := beq_iff_eq.mp hq
    rcases mem_allPairs hp with ⟨f, _, hpf⟩
    cases f with
    | parseError => simp [filePairs] at hpf
    | entries es =>
      rcases mem_processEntries hpf with ⟨e, _, hstep⟩
      have hws := stepEntry_keep_url hstep
      rw [hu, Bool.or_comm] at hws
      rw [hws] at h
      exact Bool.false_ne_true h
  unfold analyze_har summaryAt
  rw [if_pos hempty]

/-- C9 witness: `wss://example.com/socket` is absent from the aggregate. -/
theorem websocket_urls_never_aggregated_witness :
    (strStartsWith "wss://example.com/socket" "ws://" ||
       strStartsWith "wss://example.com/socket" "wss://") = true ∧
    analyze_har [HarFile.entries [⟨some "wss://example.com/socket", some 1⟩]]
      false "wss://example.com/socket" = none :=
  ⟨by decide, websocket_urls_never_aggregated _ _ _ (by decide)⟩

/-- C10: per-file failure is not atomic.  When an entry raises partway
through a file, the pairs of that file already folded into the shared
accumulator, and all pairs of the other files, remain in the returned
aggregate: the run computes exactly what it would compute had the file
ended just before the raising entry. -/
theorem partial_file_contribution_kept (fs₁ fs₂ : List HarFile)
    (es₁ es₂ : List RawEntry) (bad : RawEntry) (fa : Bool) (u : String)
    (h₁ : ∀ e ∈ es₁, stepEntry fa e ≠ .raise)
    (h₂ : stepEntry fa bad = .raise) :
    analyze_har (fs₁ ++ HarFile.entries (es₁ ++ bad :: es₂) :: fs₂) fa u =
      analyze_har (fs₁ ++ HarFile.entries es₁ :: fs₂) fa u := by
  unfold analyze_har
  rw [allPairs_append, allPairs_append]
  show summaryAt (_ ++ (filePairs fa (HarFile.entries (es₁ ++ bad :: es₂)) ++ _)) u =
    summaryAt (_ ++ (filePairs fa (HarFile.entries es₁) ++ _)) u
  simp only [filePairs]
  rw [processEntries_raise_stop es₂ h₁ h₂]

/-- C10 witness at a concrete three-entry file with a middle failure. -/
theorem partial_file_contribution_kept_witness :
    (∀ e ∈ ([⟨some "a", some 10⟩] : List RawEntry), stepEntry false e ≠ .raise) ∧
    stepEntry false ⟨some "b", none⟩ = .raise ∧
    analyze_har
        ([] ++ HarFile.entries
          ([⟨some "a", some 10⟩] ++ ⟨some "b", none⟩ :: [⟨some "c", some 7⟩]) :: []) false "a" =
      analyze_har ([] ++ HarFile.entries [⟨some "a", some 10⟩] :: []) false "a" :=
  ⟨by decide, by decide,
    partial_file_contribution_kept [] [] [⟨some "a", some 10⟩] [⟨some "c", some 7⟩]
      ⟨some "b", none⟩ false "a" (by decide) (by decide)⟩

/-- C4 counterexample: in a file whose second entry has no `time`
field, the well-formed third entry is NOT processed — its URL `c` is
absent from the aggregate, though the same entry alone produces
`c ↦ 7`.  A negative time is likewise not skipped: it is aggregated
(`n ↦ -5`).  This refutes the claim that only the malformed entry is
skipped while the rest of the file is still processed, and that
negative times are skipped. -/
theorem per_entry_skip_counterexample :
    analyze_har [HarFile.entries
        [⟨some "a", some 10⟩, ⟨some "b", none⟩, ⟨some "c", some 7⟩]] false "c" = none ∧
    analyze_har [HarFile.entries [⟨some "c", some 7⟩]] false "c" = some 7 ∧
    analyze_har [HarFile.entries [⟨some "n", some (-5)⟩]] false "n" = some (-5) := by
  refine ⟨?_, ?_, ?_⟩
  · simp +decide [analyze_har, summaryAt, allPairs, filePairs, processEntries,
      stepEntry, strStartsWith, timesAt]
  · simp +decide [analyze_har, summaryAt, allPairs, filePairs, processEntries,
      stepEntry, strStartsWith, timesAt]
    norm_num [pyMax, pyRound, roundHalfEven, Int.fract]
  · simp +decide [analyze_har, summaryAt, allPairs, filePairs, processEntries,
      stepEntry, strStartsWith, timesAt]
    norm_num [pyMax, pyRound, roundHalfEven, Int.fract]

/-- C4 amended: a missing `url` or `time` field in an entry makes the
loop raise, which the file-level handler catches: the raising entry AND
all later entries of the same file are skipped (with a warning), while
the pairs of that file recorded before the failure are kept, the
remaining files are still processed, and the run does not abort.
Negative (or any numeric) time values are never checked: an entry whose
URL survives the protocol and asset filters is recorded whatever its
time value. -/
theorem entry_error_skips_rest_of_file (fa : Bool) (es₁ es₂ : List RawEntry)
    (bad : RawEntry)
    (h₁ : ∀ e ∈ es₁, stepEntry fa e ≠ .raise)
    (h₂ : stepEntry fa bad = .raise) :
    processEntries fa (es₁ ++ bad :: es₂) = processEntries fa es₁ ∧
    (∀ (fs : List HarFile) (u : String),
      analyze_har (HarFile.entries (es₁ ++ bad :: es₂) :: fs) fa u =
        summaryAt (processEntries fa es₁ ++ allPairs fa fs) u) ∧
    (∀ (u' : String) (t : Rat),
      (strStartsWith u' "wss://" || strStartsWith u' "ws://") = false →
      (fa && is_static u') = false →
      stepEntry fa ⟨some u', some t⟩ = .keep (u', t)) := by
  refine ⟨processEntries_raise_stop es₂ h₁ h₂, ?_, ?_⟩
  · intro fs u
    unfold analyze_har
    show summaryAt (filePairs fa (HarFile.entries (es₁ ++ bad :: es₂)) ++ _) u = _
    simp only [filePairs]
    rw [processEntries_raise_stop es₂ h₁ h₂]
  · intro u' t hws hstatic
    unfold stepEntry
    simp only [hws, hstatic, Bool.false_eq_true, if_false]

/-- C4 amended witness at the three-entry file of the counterexample. -/
theorem entry_error_skips_rest_of_file_witness :
    (∀ e ∈ ([⟨some "a", some 10⟩] : List RawEntry), stepEntry false e ≠ .raise) ∧
    stepEntry false ⟨some "b", none⟩ = .raise ∧
    (processEntries false ([⟨some "a", some 10⟩] ++ ⟨some "b", none⟩ :: [⟨some "c", some 7⟩]) =
        processEntries false [⟨some "a", some 10⟩] ∧
      (∀ (fs : List HarFile) (u : String),
        analyze_har (HarFile.entries
            ([⟨some "a", some 10⟩] ++ ⟨some "b", none⟩ :: [⟨some "c", some 7⟩]) :: fs) false u =
          summaryAt (processEntries false [⟨some "a", some 10⟩] ++ allPairs false fs) u) ∧
      (∀ (u' : String) (t : Rat),
        (strStartsWith u' "wss://" || strStartsWith u' "ws://") = false →
        (false && is_static u') = false →
        stepEntry false ⟨some u', some t⟩ = .keep (u', t))) :=
  ⟨by decide, by decide,
    entry_error_skips_rest_of_file false [⟨some "a", some 10⟩] [⟨some "c", some 7⟩]
      ⟨some "b", none⟩ (by decide) (by decide)⟩

/-- C1: for a URL whose list of surviving times is non-empty, the
aggregate maps it to the maximum time rounded to 2 decimal places — the
rounding applied once, at finalization, to the maximum — and the result
is unchanged under any permutation of the accumulated pairs, so it does
not depend on the order in which entries arrive. -/
theorem max_rounded_once_order_independent (files : List HarFile) (fa : Bool) (u : String)
    (h : timesAt (allPairs fa files) u ≠ []) :
    analyze_har files fa u =
      some (pyRound 2 (pyMax (timesAt (allPairs fa files) u))) ∧
    ∀ ps' : List (String × Rat), (allPairs fa files).Perm ps' →
      summaryAt ps' u = analyze_har files fa u := by
  constructor
  · unfold analyze_har summaryAt
    rw [if_neg h]
  · intro ps' hp
    unfold analyze_har
    exact (summaryAt_perm hp u).symm

/-- C1 witness: two entries for URL `a` with times 3 and 10. -/
theorem max_rounded_once_order_independent_witness :
    timesAt (allPairs false
        [HarFile.entries [⟨some "a", some 3⟩, ⟨some "a", some 10⟩]]) "a" ≠ [] ∧
    (analyze_har [HarFile.entries [⟨some "a", some 3⟩, ⟨some "a", some 10⟩]] false "a" =
        some (pyRound 2 (pyMax (timesAt (allPairs false
          [HarFile.entries [⟨some "a", some 3⟩, ⟨some "a", some 10⟩]]) "a"))) ∧
      ∀ ps' : List (String × Rat),
        (allPairs false [HarFile.entries [⟨some "a", some 3⟩, ⟨some "a", some 10⟩]]).Perm ps' →
        summaryAt ps' "a" =
          analyze_har [HarFile.entries [⟨some "a", some 3⟩, ⟨some "a", some 10⟩]] false "a") :=
  ⟨by decide, max_rounded_once_order_independent _ _ _ (by decide)⟩

/-- C3 counterexample: `https://x.com/download?file=a.js` is dropped by
the code when `filter_assets=true` (the URL ends with `.js`, though the
`.js` lies entirely inside the query string), while the claim's
predicate — trailing query string stripped, then suffix checked —
retains it.  The same URL passes through when `filter_assets=false`. -/
theorem asset_filter_query_suffix_counterexample :
    analyze_har [HarFile.entries [⟨some "https://x.com/download?file=a.js", some 1⟩]]
      true "https://x.com/download?file=a.js" = none ∧
    analyze_har [HarFile.entries [⟨some "https://x.com/download?file=a.js", some 1⟩]]
      false "https://x.com/download?file=a.js" = some 1 ∧
    specStatic "https://x.com/download?file=a.js" = false := by
  refine ⟨?_, ?_, by decide⟩
  · simp +decide [analyze_har, summaryAt, allPairs, filePairs, processEntries,
      stepEntry, strStartsWith, is_static, static_extensions, static_paths,
      strEndsWith, strContains, charsContain, timesAt]
  · simp +decide [analyze_har, summaryAt, allPairs, filePairs, processEntries,
      stepEntry, strStartsWith, timesAt]
    norm_num [pyMax, pyRound, roundHalfEven, Int.fract]

/-- C3 amended: with `filter_assets=true`, a (non-WebSocket) entry is
dropped if and only if its URL ends with one of the static extensions,
or contains an extension immediately followed by a question mark as a
substring ANYWHERE (not merely when the stripped URL ends with the
extension), or contains one of the path markers as a substring; with
`filter_assets=false` the entry is retained.  In particular
`https://cdn.example.com/app.abc123.js?v=2` is dropped when the flag is
set and retained when it is not. -/
theorem asset_filter_drop_iff (u : String) (t : Rat)
    (hws : (strStartsWith u "wss://" || strStartsWith u "ws://") = false) :
    (analyze_har [HarFile.entries [⟨some u, some t⟩]] true u = none ↔
      ((static_extensions.any fun ext =>
          strEndsWith u ext || strContains u (ext ++ "?")) ||
        (static_paths.any fun p => strContains u p)) = true) ∧
    analyze_har [HarFile.entries [⟨some u, some t⟩]] false u = some (pyRound 2 t) ∧
    analyze_har [HarFile.entries
        [⟨some "https://cdn.example.com/app.abc123.js?v=2", some t⟩]] true
      "https://cdn.example.com/app.abc123.js?v=2" = none ∧
    analyze_har [HarFile.entries
        [⟨some "https://cdn.example.com/app.abc123.js?v=2", some t⟩]] false
      "https://cdn.example.com/app.abc123.js?v=2" = some (pyRound 2 t) := by
  have hstep_t : stepEntry true ⟨some u, some t⟩ =
      if is_static u then .skip else .keep (u, t) := by
    unfold stepEntry
    simp only [hws, Bool.false_eq_true, if_false, Bool.true_and]
  have hstep_f : stepEntry false ⟨some u, some t⟩ = .keep (u, t) := by
    unfold stepEntry
    simp only [hws, Bool.false_eq_true, if_false, Bool.false_and]
  have hsingle : ∀ (v : String) (s : Rat), timesAt [(v, s)] v = [s] := by
    intro v s
    simp [timesAt]
  refine ⟨?_, ?_, ?_, ?_⟩
  · by_cases his : is_static u
    · have hpairs : allPairs true [HarFile.entries [⟨some u, some t⟩]] = [] := by
        simp [allPairs, filePairs, processEntries, hstep_t, his]
      rw [analyze_har, hpairs]
      have : is_static u = true := his
      rw [is_static] at this
      simp [summaryAt, timesAt, this]
    · have hpairs : allPairs true [HarFile.entries [⟨some u, some t⟩]] = [(u, t)] := by
        simp [allPairs, filePairs, processEntries, hstep_t, his]
      rw [analyze_har, hpairs]
      have hfalse : ((static_extensions.any fun ext =>
          strEndsWith u ext || strContains u (ext ++ "?")) ||
          (static_paths.any fun p => strContains u p)) = false := by
        have : is_static u = false := by simp [his]
        rwa [is_static] at this
      rw [summaryAt, hsingle, if_neg (by simp)]
      simp [hfalse]
  · have hpairs : allPairs false [HarFile.entries [⟨some u, some t⟩]] = [(u, t)] := by
      simp [allPairs, filePairs, processEntries, hstep_f]
    rw [analyze_har, hpairs, summaryAt, hsingle, if_neg (by simp)]
    simp [pyMax]
  · simp +decide [analyze_har, summaryAt, allPairs, filePairs, processEntries,
      stepEntry, strStartsWith, is_static, static_extensions, static_paths,
      strEndsWith, strContains, charsContain, timesAt]
  · have hstep : stepEntry false
        ⟨some "https://cdn.example.com/app.abc123.js?v=2", some t⟩ =
        .keep ("https://cdn.example.com/app.abc123.js?v=2", t) := by
      unfold stepEntry
      simp only [if_neg (by decide : ¬((strStartsWith
        "https://cdn.example.com/app.abc123.js?v=2" "wss://" ||
        strStartsWith "https://cdn.example.com/app.abc123.js?v=2" "ws://") = true)),
        Bool.false_and, Bool.false_eq_true, if_false]
    have hpairs : allPairs false [HarFile.entries
        [⟨some "https://cdn.example.com/app.abc123.js?v=2", some t⟩]] =
        [("https://cdn.example.com/app.abc123.js?v=2", t)] := by
      simp [allPairs, filePairs, processEntries, hstep]
    rw [analyze_har, hpairs, summaryAt, hsingle, if_neg (by simp)]
    simp [pyMax]

theorem mem_compare_performance {A B : List (String × Rat)} {nA nB : String}
    {r : ComparisonRow} :
    r ∈ compare_performance A B nA nB ↔
      ∃ p ∈ A, (B.lookup p.1).isSome = true ∧
        r = mkRow nA nB p.1 p.2 ((B.lookup p.1).getD 0) := by
  unfold compare_performance
  rw [(sortDesc_perm _ _).mem_iff]
  constructor
  · intro h
    rcases List.mem_map.mp h with ⟨p, hp, hr⟩
    rcases List.mem_filter.mp hp with ⟨hpA, hg⟩
    exact ⟨p, hpA, hg, hr.symm⟩
  · rintro ⟨p, hpA, hg, hr⟩
    exact List.mem_map.mpr ⟨p, List.mem_filter.mpr ⟨hpA, hg⟩, hr.symm⟩

theorem compare_url_iff (A B : List (String × Rat)) (nA nB : String) (u : String) :
    (∃ r ∈ compare_performance A B nA nB, r.url = u) ↔
      ((A.lookup u).isSome = true ∧ (B.lookup u).isSome = true) := by
  constructor
  · rintro ⟨r, hr, hu⟩
    rcases mem_compare_performance.mp hr with ⟨p, hpA, hg, hrEq⟩
    have hurl : p.1 = u := by rw [hrEq] at hu; exact hu
    subst hurl
    exact ⟨(lookup_isSome_iff A p.1).mpr ⟨p.2, by simpa using hpA⟩, hg⟩
  · rintro ⟨hA, hB⟩
    rcases (lookup_isSome_iff A u).mp hA with ⟨v, hv⟩
    exact ⟨mkRow nA nB u v ((B.lookup u).getD 0),
      mem_compare_performance.mpr ⟨(u, v), hv, hB, rfl⟩, rfl⟩

theorem compare_urls_nodup {A B : List (String × Rat)} {nA nB : String}
    (hA : (A.map Prod.fst).Nodup) :
    ((compare_performance A B nA nB).map fun r => r.url).Nodup := by
  have hperm :
      ((compare_performance A B nA nB).map fun r => r.url).Perm
        (((A.filter fun p => (B.lookup p.1).isSome).map
          fun p => mkRow nA nB p.1 p.2 ((B.lookup p.1).getD 0)).map fun r => r.url) :=
    (sortDesc_perm _ _).map _
  refine hperm.nodup_iff.mpr ?_
  rw [List.map_map]
  have hcomp :
      ((fun r : ComparisonRow => r.url) ∘
        fun p : String × Rat => mkRow nA nB p.1 p.2 ((B.lookup p.1).getD 0)) =
      fun p : String × Rat => p.1 := rfl
  rw [hcomp]
  exact hA.sublist ((List.filter_sublist A).map Prod.fst)

theorem compare_row_fields {A B : List (String × Rat)} {nA nB : String}
    {r : ComparisonRow} (hA : (A.map Prod.fst).Nodup)
    (hr : r ∈ compare_performance A B nA nB) :
    A.lookup r.url = some r.first_avg ∧ B.lookup r.url = some r.second_avg ∧
      r = mkRow nA nB r.url r.first_avg r.second_avg := by
  rcases mem_compare_performance.mp hr with ⟨p, hpA, hg, hrEq⟩
  rcases Option.isSome_iff_exists.mp hg with ⟨v, hv⟩
  have hgd : (B.lookup p.1).getD 0 = v := by rw [hv]; rfl
  rw [hgd] at hrEq
  subst hrEq
  refine ⟨?_, ?_, rfl⟩
  · show A.lookup p.1 = some p.2
    exact mem_lookup_of_nodup hA (by simpa using hpA)
  · show B.lookup p.1 = some v
    exact hv

/-- C5: `compare_performance` returns exactly one row per URL present
in both aggregates — an inner join, URLs on one side only produce no
row — with `time_diff` and `percentage_diff` computed from the two
stored values, and the rows sorted descending by `time_diff`.  On the
aggregates `{u1 ↦ 100, u2 ↦ 50}` and `{u1 ↦ 150, u3 ↦ 10}` the result
is the single row for `u1` with `time_diff = 50` and
`percentage_diff = 50`. -/
theorem compare_inner_join_sorted (A B : List (String × Rat)) (nA nB : String)
    (hA : (A.map Prod.fst).Nodup) :
    (∀ u : String, (∃ r ∈ compare_performance A B nA nB, r.url = u) ↔
      ((A.lookup u).isSome = true ∧ (B.lookup u).isSome = true)) ∧
    ((compare_performance A B nA nB).map fun r => r.url).Nodup ∧
    (∀ r ∈ compare_performance A B nA nB,
      A.lookup r.url = some r.first_avg ∧ B.lookup r.url = some r.second_avg ∧
        r.time_diff = pyRound 2 (r.second_avg - r.first_avg) ∧
        r.percentage_diff = if 0 < r.first_avg then
          pyRound 1 ((r.second_avg - r.first_avg) / r.first_avg * 100) else 0) ∧
    ((compare_performance A B nA nB).Pairwise fun x y => y.time_diff ≤ x.time_diff) ∧
    compare_performance [("u1", 100), ("u2", 50)] [("u1", 150), ("u3", 10)] nA nB =
      [mkRow nA nB "u1" 100 150] ∧
    (mkRow nA nB "u1" 100 150).time_diff = 50 ∧
    (mkRow nA nB "u1" 100 150).percentage_diff = 50 := by
  refine ⟨compare_url_iff A B nA nB, compare_urls_nodup hA, ?_, ?_, ?_, ?_, ?_⟩
  · intro r hr
    obtain ⟨h1, h2, hEq⟩ := compare_row_fields hA hr
    exact ⟨h1, h2, congrArg ComparisonRow.time_diff hEq,
      congrArg ComparisonRow.percentage_diff hEq⟩
  · exact sortDesc_sorted _ _
  · simp +decide [compare_performance, List.filter_cons, List.lookup, sortDesc, insertDesc]
  · show pyRound 2 (150 - 100) = 50
    norm_num [pyRound, roundHalfEven, Int.fract]
  · show (if (0 : Rat) < 100 then pyRound 1 ((150 - 100) / 100 * 100) else 0) = 50
    norm_num [pyRound, roundHalfEven, Int.fract]

/-- C5 witness at the two concrete aggregates of the claim. -/
theorem compare_inner_join_sorted_witness :
    (([("u1", (100 : Rat)), ("u2", 50)].map Prod.fst).Nodup) ∧
    (∀ u : String,
      (∃ r ∈ compare_performance [("u1", 100), ("u2", 50)] [("u1", 150), ("u3", 10)]
          "base" "cand", r.url = u) ↔
        (([("u1", (100 : Rat)), ("u2", 50)].lookup u).isSome = true ∧
          ([("u1", (150 : Rat)), ("u3", 10)].lookup u).isSome = true)) :=
  ⟨by decide,
    (compare_inner_join_sorted [("u1", 100), ("u2", 50)] [("u1", 150), ("u3", 10)]
      "base" "cand" (by decide)).1⟩

/-- C6: in every comparison row whose baseline (`first`) value is `0`,
`percentage_diff` is `0` — not an infinity, NaN or an error — so the
division in `compare_performance` is never reached with a zero
denominator, for any pair of aggregates with non-negative values. -/
theorem zero_baseline_pct_zero (A B : List (String × Rat)) (nA nB : String)
    (hposA : ∀ p ∈ A, 0 ≤ p.2) (hposB : ∀ p ∈ B, 0 ≤ p.2) :
    ∀ r ∈ compare_performance A B nA nB,
      r.first_avg = 0 → r.percentage_diff = 0 := by
  intro r hr h0
  rcases mem_compare_performance.mp hr with ⟨p, hpA, hg, hrEq⟩
  have hfa : p.2 = 0 := by rw [hrEq] at h0; exact h0
  have hpd : r.percentage_diff =
      if 0 < p.2 then pyRound 1 (((B.lookup p.1).getD 0 - p.2) / p.2 * 100) else 0 :=
    congrArg ComparisonRow.percentage_diff hrEq
  rw [hpd, hfa]
  norm_num

/-- C6 witness: baseline value 0, candidate value 5. -/
theorem zero_baseline_pct_zero_witness :
    (∀ p ∈ ([("u", 0)] : List (String × Rat)), 0 ≤ p.2) ∧
    (∀ p ∈ ([("u", 5)] : List (String × Rat)), 0 ≤ p.2) ∧
    (∀ r ∈ compare_performance [("u", 0)] [("u", 5)] "a" "b",
      r.first_avg = 0 → r.percentage_diff = 0) :=
  ⟨by decide, by decide,
    zero_baseline_pct_zero [("u", 0)] [("u", 5)] "a" "b" (by decide) (by decide)⟩

/-- C8: `compare_performance A B` and `compare_performance B A` produce
rows for exactly the same set of URLs, and for each shared URL the
`time_diff` of one is the exact negation of the `time_diff` of the
other (round-half-to-even commutes with negation). -/
theorem compare_swap_negates_delta (A B : List (String × Rat)) (nA nB : String)
    (hA : (A.map Prod.fst).Nodup) (hB : (B.map Prod.fst).Nodup) :
    (∀ u : String, (∃ r ∈ compare_performance A B nA nB, r.url = u) ↔
      (∃ r ∈ compare_performance B A nB nA, r.url = u)) ∧
    (∀ rab ∈ compare_performance A B nA nB, ∀ rba ∈ compare_performance B A nB nA,
      rab.url = rba.url → rab.time_diff = -rba.time_diff) := by
  constructor
  · intro u
    rw [compare_url_iff, compare_url_iff]
    exact and_comm
  · intro rab hab rba hba hu
    obtain ⟨haA, haB, haEq⟩ := compare_row_fields hA hab
    obtain ⟨hbB, hbA, hbEq⟩ := compare_row_fields hB hba
    rw [hu] at haA haB
    have h1 : rab.first_avg = rba.second_avg := Option.some.inj (haA.symm.trans hbA)
    have h2 : rab.second_avg = rba.first_avg := Option.some.inj (haB.symm.trans hbB)
    have hta : rab.time_diff = pyRound 2 (rab.second_avg - rab.first_avg) :=
      congrArg ComparisonRow.time_diff haEq
    have htb : rba.time_diff = pyRound 2 (rba.second_avg - rba.first_avg) :=
      congrArg ComparisonRow.time_diff hbEq
    rw [hta, htb, h1, h2, ← pyRound_neg]
    congr 1
    ring

/-- C8 witness at the one-URL aggregates `{u ↦ 100}` and `{u ↦ 150}`. -/
theorem compare_swap_negates_delta_witness :
    (([("u", (100 : Rat))].map Prod.fst).Nodup) ∧
    (([("u", (150 : Rat))].map Prod.fst).Nodup) ∧
    (∀ rab ∈ compare_performance [("u", 100)] [("u", 150)] "a" "b",
      ∀ rba ∈ compare_performance [("u", 150)] [("u", 100)] "b" "a",
        rab.url = rba.url → rab.time_diff = -rba.time_diff) :=
  ⟨by decide, by decide,
    (compare_swap_negates_delta [("u", 100)] [("u", 150)] "a" "b"
      (by decide) (by decide)).2⟩

/-- C2 counterexample: with first command-line folder aggregate
`{u ↦ 100}` and second `{u ↦ 150}`, the claim predicts
`delta_ms = 150 - 100 = 50`; the call site
`compare_performance(second_data, first_data, ...)` instead yields
`time_diff = -50` — the SECOND folder is the baseline. -/
theorem baseline_direction_counterexample :
    ((runComparison [("u", 100)] [("u", 150)] "dirA" "dirB").map
      fun r => r.time_diff) = [-50] ∧
    ¬((-50 : Rat) = 150 - 100) := by
  constructor
  · show ((compare_performance [("u", 150)] [("u", 100)] "dirB" "dirA").map
      fun r => r.time_diff) = [-50]
    simp +decide [compare_performance, List.filter_cons, List.lookup, sortDesc,
      insertDesc, mkRow]
    norm_num [pyRound, roundHalfEven, Int.fract]
  · norm_num

/-- C2 amended: in two-directory comparison mode the SECOND directory
given on the command line is the baseline: every displayed row stores
the second directory's value in its baseline (`first_*`) fields and the
first directory's value in its `second_*` fields, so
`delta_ms = pyRound 2 (first directory value - second directory value)`
and `delta_pct` is computed relative to the second directory's value;
the row's `first_name` (the name displayed as the baseline,
"以...为基准") is the second directory's name. -/
theorem second_directory_is_baseline (A B : List (String × Rat)) (nA nB : String)
    (hB : (B.map Prod.fst).Nodup) :
    ∀ r ∈ runComparison A B nA nB,
      B.lookup r.url = some r.first_avg ∧
      A.lookup r.url = some r.second_avg ∧
      r.time_diff = pyRound 2 (r.second_avg - r.first_avg) ∧
      r.percentage_diff = (if 0 < r.first_avg then
        pyRound 1 ((r.second_avg - r.first_avg) / r.first_avg * 100) else 0) ∧
      r.first_name = nB ∧ r.second_name = nA := by
  intro r hr
  obtain ⟨h1, h2, hEq⟩ := compare_row_fields hB hr
  exact ⟨h1, h2, congrArg ComparisonRow.time_diff hEq,
    congrArg ComparisonRow.percentage_diff hEq,
    congrArg ComparisonRow.first_name hEq,
    congrArg ComparisonRow.second_name hEq⟩

/-- C2 amended witness at `{u ↦ 100}` vs `{u ↦ 150}`. -/
theorem second_directory_is_baseline_witness :
    (([("u", (150 : Rat))].map Prod.fst).Nodup) ∧
    (∀ r ∈ runComparison [("u", 100)] [("u", 150)] "dirA" "dirB",
      [("u", (150 : Rat))].lookup r.url = some r.first_avg ∧
      [("u", (100 : Rat))].lookup r.url = some r.second_avg ∧
      r.time_diff = pyRound 2 (r.second_avg - r.first_avg) ∧
      r.percentage_diff = (if 0 < r.first_avg then
        pyRound 1 ((r.second_avg - r.first_avg) / r.first_avg * 100) else 0) ∧
      r.first_name = "dirB" ∧ r.second_name = "dirA") :=
  ⟨by decide,
    second_directory_is_baseline [("u", 100)] [("u", 150)] "dirA" "dirB" (by decide)⟩

/-- C7: the ranker keeps the first `top_n` entries of the stable
descending sort of the aggregate: at most `top_n` entries come back
(exactly `min top_n (number of URLs)`, so fewer when the aggregate is
smaller and none for an empty aggregate); the result is sorted
descending by `max_time` with ties left in the aggregate's iteration
order (the sort preserves the relative order of equal keys); the
default `top_n` is 100; the first entry's value is at least the last
entry's; and 150 distinct URLs with `top_n = 100` give exactly 100
entries. -/
theorem ranker_returns_top_n (data : List (String × Rat)) (top_n : Nat)
    (hkeys : (data.map Prod.fst).Nodup) :
    (analyze_slowest_urls data top_n).length = min top_n data.length ∧
    ((analyze_slowest_urls data top_n).Pairwise fun x y => y.max_time ≤ x.max_time) ∧
    analyze_slowest_urls data top_n =
      (sortDesc (fun r => r.max_time) (data.map fun p => ⟨p.1, p.2⟩)).take top_n ∧
    (∀ c : Rat,
      ((sortDesc (fun r => r.max_time) (data.map fun p => ⟨p.1, p.2⟩)).filter
          fun r => r.max_time == c) =
        ((data.map fun p => (⟨p.1, p.2⟩ : SlowRow)).filter fun r => r.max_time == c)) ∧
    analyze_slowest_urls_default data = analyze_slowest_urls data 100 ∧
    (data = [] → analyze_slowest_urls data top_n = []) ∧
    (∀ x ∈ (analyze_slowest_urls data top_n).head?,
      ∀ y ∈ (analyze_slowest_urls data top_n).getLast?, y.max_time ≤ x.max_time) ∧
    (data.length = 150 → top_n = 100 → (analyze_slowest_urls data top_n).length = 100) := by
  have hrepr : analyze_slowest_urls data top_n =
      (sortDesc (fun r => r.max_time) (data.map fun p => ⟨p.1, p.2⟩)).take top_n := by
    unfold analyze_slowest_urls
    split
    · rename_i h
      rw [List.isEmpty_iff.mp h]
      simp [sortDesc]
    · rfl
  have hsorted : ((analyze_slowest_urls data top_n).Pairwise
      fun x y => y.max_time ≤ x.max_time) := by
    rw [hrepr]
    exact List.Pairwise.sublist (List.take_sublist _ _) (sortDesc_sorted _ _)
  have hlen : (analyze_slowest_urls data top_n).length = min top_n data.length := by
    rw [hrepr, List.length_take, (sortDesc_perm _ _).length_eq, List.length_map]
  refine ⟨hlen, hsorted, hrepr, fun c => sortDesc_filter_key _ c _, rfl, ?_, ?_, ?_⟩
  · intro h
    rw [hrepr, h]
    simp [sortDesc]
  · exact pairwise_head_getLast hsorted fun a => le_refl _
  · intro h1 h2
    rw [hlen, h1, h2]
    omega

set_option maxRecDepth 40000 in
/-- C7 witness: an aggregate of 150 distinct URLs, `top_n = 100`. -/
theorem ranker_returns_top_n_witness :
    ((((List.range 150).map fun i =>
        (String.mk (List.replicate i 'a'), (i : Rat))).map Prod.fst).Nodup) ∧
    ((analyze_slowest_urls ((List.range 150).map fun i =>
        (String.mk (List.replicate i 'a'), (i : Rat))) 100).length =
      min 100 ((List.range 150).map fun i =>
        (String.mk (List.replicate i 'a'), (i : Rat))).length) ∧
    ((List.range 150).map fun i =>
        (String.mk (List.replicate i 'a'), (i : Rat))).length = 150 :=
  ⟨by decide,
    (ranker_returns_top_n ((List.range 150).map fun i =>
      (String.mk (List.replicate i 'a'), (i : Rat))) 100 (by decide)).1,
    by decide⟩

/-- C3 amended witness at `https://cdn.example.com/app.abc123.js?v=2`
with time 1. -/
theorem asset_filter_drop_iff_witness :
    (strStartsWith "https://cdn.example.com/app.abc123.js?v=2" "wss://" ||
      strStartsWith "https://cdn.example.com/app.abc123.js?v=2" "ws://") = false ∧
    analyze_har [HarFile.entries
        [⟨some "https://cdn.example.com/app.abc123.js?v=2", some 1⟩]] true
      "https://cdn.example.com/app.abc123.js?v=2" = none :=
  ⟨by decide,
    (asset_filter_drop_iff "https://cdn.example.com/app.abc123.js?v=2" 1 (by decide)).2.2.1⟩

end Harview
